import Mathlib

/-!
Verification of the batch-submitter core: the sequencer driver
(`go/batch-submitter/drivers/sequencer/driver.go`) and the submission
service event loop (`batchsubmitter.Service.eventLoop`).

The driver code in the repository is embedded directly (the accumulation
loop, the serialize-and-shrink loop, `GetBatchBlockRange`, and the event
loop's per-cycle control flow).  The batch-encoding helpers referenced by
the driver (`BatchElementFromBlock`, `GenSequencerBatchParams`,
`AppendSequencerBatchParams.Serialize`, `TxLenSize`) are not part of the
provided sources; they are modelled from the specification and are marked
as such in their doc comments.  External effects (L1/L2 RPC reads, the
transactor constructor, `RawTransact`) are modelled as oracle parameters;
sizes and counters are modelled as unbounded naturals (the 64-bit widths
in the source cannot overflow for any payload that fits in a transaction).
-/

namespace BatchSubmitter

/-- Raw bytes, modelled as a list of naturals (each intended to be < 256). -/
abbrev Bytes := List Nat

deriving instance DecidableEq for Except

/-- The per-height view of an L2 block that the driver consumes: its height,
its timestamp, whether its transaction was locally sequenced, and the raw
transaction bytes. -/
structure Block where
  number : Nat
  timestamp : Nat
  isSequencerBlock : Bool
  txData : Bytes
deriving Repr, DecidableEq

/-- The per-block unit fed to encoding: timestamp, height, and (only for
locally-sequenced elements) the raw transaction bytes. -/
structure BatchElement where
  timestamp : Nat
  blockNumber : Nat
  tx : Option Bytes
deriving Repr, DecidableEq

/-- An element is a sequencer (locally-sequenced) element iff it carries
raw transaction bytes. -/
def BatchElement.isSequencerTx (e : BatchElement) : Bool := e.tx.isSome

/-- Size of the raw transaction carried by an element (0 for queue elements). -/
def txSize (e : BatchElement) : Nat :=
  match e.tx with
  | some bs => bs.length
  | none => 0

/-- Modelled from the spec: `TxLenSize`, the byte width of the length
word written in front of each transaction's bytes in the serialized batch
("a length-prefix-sized accounting unit").  The definition of this constant
is not among the provided sources; the concrete value 3 matches a 3-byte
length word. -/
def TxLenSize : Nat := 3

/-- Modelled from the spec: `BatchElementFromBlock`, which is not among the
provided sources.  Per the spec a BatchElement is "derived deterministically
from a SecondaryBlock: a classification flag (locally-sequenced vs
externally-enqueued), a timestamp, a height, and, only for locally-sequenced
elements, the raw transaction bytes". -/
def BatchElementFromBlock (b : Block) : BatchElement :=
  ⟨b.timestamp, b.number, if b.isSequencerBlock then some b.txData else none⟩

/-- The estimated payload contribution of one element in the accumulation
loop of `SubmitBatchTx`: sequencer elements cost a length word plus their
raw size, queue elements cost nothing (driver.go lines 161-172). -/
def seqContribution (e : BatchElement) : Nat :=
  if e.isSequencerTx then TxLenSize + txSize e else 0

/-- Sum of the estimated contributions of the sequencer elements of a batch. -/
def seqSizeSum (elems : List BatchElement) : Nat :=
  (elems.map seqContribution).sum

/-- The block-accumulation loop of `Driver.SubmitBatchTx` (driver.go lines
148-175): starting at height `i` with `n` heights left and running size
estimate `total`, fetch each block, convert it to a `BatchElement`, and
stop early ("break") as soon as appending the next sequencer transaction
would push the running estimate above `maxTxSize`.  A failed block fetch
aborts the whole call with that error.  Returns the accumulated elements
together with the final running estimate. -/
def accumulate (maxTxSize : Nat) (fetch : Nat → Except String Block) :
    Nat → Nat → Nat → Except String (List BatchElement × Nat)
  | _, 0, total => .ok ([], total)
  | i, n + 1, total =>
    match fetch i with
    | .error e => .error e
    | .ok b =>
      let el := BatchElementFromBlock b
      if el.isSequencerTx then
        if maxTxSize < total + (TxLenSize + txSize el) then
          .ok ([], total)
        else
          match accumulate maxTxSize fetch (i + 1) n (total + (TxLenSize + txSize el)) with
          | .error e => .error e
          | .ok (els, t) => .ok (el :: els, t)
      else
        match accumulate maxTxSize fetch (i + 1) n total with
        | .error e => .error e
        | .ok (els, t) => .ok (el :: els, t)

/-- The elements obtained by fetching `k` consecutive heights starting at
`i` and converting each block, in ledger order.  Used to state which
contiguous height range a constructed batch covers. -/
def mapElems (fetch : Nat → Except String Block) :
    Nat → Nat → Except String (List BatchElement)
  | _, 0 => .ok []
  | i, k + 1 =>
    match fetch i with
    | .error e => .error e
    | .ok b =>
      match mapElems fetch (i + 1) k with
      | .error e => .error e
      | .ok els => .ok (BatchElementFromBlock b :: els)

/-- One pruning step of `Driver.SubmitBatchTx` (driver.go lines 196-198):
`batchElements = batchElements[:(oldLen*9)/10]`. -/
def pruneStep (elems : List BatchElement) : List BatchElement :=
  elems.take (elems.length * 9 / 10)

/-- The serializable batch unit.  Modelled from the spec: "an ordered
sequence of BatchElements plus the starting height offset"; the element
count to append is carried alongside so the on-chain decoder commits
exactly the encoded range. -/
structure AppendSequencerBatchParams where
  shouldStartAtElement : Nat
  totalElementsToAppend : Nat
  elements : List BatchElement
deriving Repr, DecidableEq

/-- Modelled from the spec: `GenSequencerBatchParams`, which is not among
the provided sources.  It packages the accumulated elements with the
starting element index (the start height minus the configured block
offset) and the element count. -/
def genSequencerBatchParams (shouldStartAt blockOffset : Nat)
    (batch : List BatchElement) : Except String AppendSequencerBatchParams :=
  .ok ⟨shouldStartAt - blockOffset, batch.length, batch⟩

/-- Big-endian fixed-width byte encoding of a natural number. -/
def natToBytes : Nat → Nat → Bytes
  | 0, _ => []
  | w + 1, n => n / 256 ^ w % 256 :: natToBytes w n

/-- Big-endian byte decoding. -/
def bytesToNat (bs : Bytes) : Nat :=
  bs.foldl (fun a b => a * 256 + b) 0

/-- Modelled from the spec: the fixed 16-byte per-element ordering/context
record (grouping metadata, timestamp, height) written by the serializer. -/
def contextBytes (e : BatchElement) : Bytes :=
  natToBytes 3 (if e.isSequencerTx then 1 else 0) ++
    natToBytes 3 (if e.isSequencerTx then 0 else 1) ++
    natToBytes 5 e.timestamp ++ natToBytes 5 e.blockNumber

/-- Modelled from the spec: the transaction section contribution of one
element: a `TxLenSize`-byte length word followed by the raw bytes for a
sequencer element, nothing for a queue element. -/
def txBytes (e : BatchElement) : Bytes :=
  match e.tx with
  | some bs => natToBytes TxLenSize bs.length ++ bs
  | none => []

/-- Context records of a whole batch, in order. -/
def contextsBytes : List BatchElement → Bytes
  | [] => []
  | e :: rest => contextBytes e ++ contextsBytes rest

/-- Transaction section of a whole batch, in order. -/
def txsBytes : List BatchElement → Bytes
  | [] => []
  | e :: rest => txBytes e ++ txsBytes rest

/-- Modelled from the spec: `AppendSequencerBatchParams.Serialize`, which is
not among the provided sources.  Layout: a 5-byte starting element index, a
3-byte total element count, a 3-byte context count, the 16-byte context
records, then each sequencer transaction behind a `TxLenSize`-byte length
word.  (The spec leaves the exact grouping open; one context per element is
used, which only adds per-element overhead and affects no claim.) -/
def serializeBytes (p : AppendSequencerBatchParams) : Bytes :=
  natToBytes 5 p.shouldStartAtElement ++
    natToBytes 3 p.totalElementsToAppend ++
    natToBytes 3 p.elements.length ++
    contextsBytes p.elements ++ txsBytes p.elements

/-- Reads the 3-byte `totalElementsToAppend` field of a serialized batch
calldata (4-byte method selector, then a 5-byte starting index, then the
total). -/
def decodeTotalElements (callData : Bytes) : Nat :=
  bytesToNat ((callData.drop 9).take 3)

/-- Outcome of one `SubmitBatchTx` call: the published calldata together
with the final element list (observable through the publication itself and
the per-batch metrics/logs), an error return, or `spinning` when the given
fuel was exhausted without the serialize-and-shrink loop returning (used to
witness non-termination of the source loop, which has no fuel bound). -/
inductive SubmitResult where
  | published (callData : Bytes) (finalElements : List BatchElement)
  | failed (msg : String)
  | spinning
deriving Repr, DecidableEq

/-- The configuration and external collaborators of one `SubmitBatchTx`
call: the ABI method-selector bytes, the configured maximum calldata size
and block offset, the L2 block fetcher, the batch-parameter generator and
serializer, and the transactor constructor (`NewKeyedTransactorWithChainID`,
whose only claim-relevant behaviour is that it may fail). -/
structure SubmitParams where
  methodID : Bytes
  maxTxSize : Nat
  blockOffset : Nat
  fetch : Nat → Except String Block
  genParams : Nat → Nat → List BatchElement → Except String AppendSequencerBatchParams
  serialize : AppendSequencerBatchParams → Except String Bytes
  mkTransactor : Except String Unit

/-- The serialize-and-shrink loop of `Driver.SubmitBatchTx` (driver.go lines
178-221), with explicit fuel: generate batch params, serialize, prepend the
method selector; while the calldata exceeds `maxTxSize`, keep the first
`(oldLen*9)/10` elements and retry; otherwise build the transactor and
publish.  The second component is the broadcast log: the calldata of every
`RawTransact` call made. -/
def pruneLoop (P : SubmitParams) (shouldStartAt : Nat) :
    Nat → List BatchElement → SubmitResult × List Bytes
  | 0, _ => (.spinning, [])
  | fuel + 1, elems =>
    match P.genParams shouldStartAt P.blockOffset elems with
    | .error e => (.failed e, [])
    | .ok bp =>
      match P.serialize bp with
      | .error e => (.failed e, [])
      | .ok args =>
        let callData := P.methodID ++ args
        if P.maxTxSize < callData.length then
          pruneLoop P shouldStartAt fuel (pruneStep elems)
        else
          match P.mkTransactor with
          | .error e => (.failed e, [])
          | .ok _ => (.published callData elems, [callData])

/-- `Driver.SubmitBatchTx` (driver.go lines 137-222): accumulate elements
for heights `start ≤ i < end` under the running size estimate, then run the
serialize-and-shrink loop (with the given fuel) and publish. -/
def SubmitBatchTx (P : SubmitParams) (start end_ fuel : Nat) :
    SubmitResult × List Bytes :=
  match accumulate P.maxTxSize P.fetch start (end_ - start) 0 with
  | .error e => (.failed e, [])
  | .ok (elems, _) => pruneLoop P start fuel elems

/-- `SubmitParams` with the concrete (spec-modelled) batch-parameter
generator and serializer, a 4-byte selector, and an infallible transactor. -/
def specParams (maxTxSize blockOffset : Nat)
    (fetch : Nat → Except String Block) : SubmitParams :=
  ⟨[0, 0, 0, 0], maxTxSize, blockOffset, fetch, genSequencerBatchParams,
    fun p => .ok (serializeBytes p), .ok ()⟩

/-- `Driver.GetBatchBlockRange` (driver.go lines 104-132): `start` is the
contract's total-elements counter plus the block offset, `end` is the L2
head height plus one; fails when `start > end`, i.e. `end < start`. -/
def GetBatchBlockRange (blockOffset : Nat)
    (getTotalElements : Except String Nat) (l2Head : Except String Nat) :
    Except String (Nat × Nat) :=
  match getTotalElements with
  | .error e => .error e
  | .ok te =>
    match l2Head with
    | .error e => .error e
    | .ok h =>
      let start := te + blockOffset
      let end_ := h + 1
      if end_ < start then .error "invalid range" else .ok (start, end_)

/-- The oracle results consumed by one iteration of `Service.eventLoop`:
the wallet-balance read, the block-range resolution, the nonce read, and
the transaction-manager send. -/
structure CycleOracle where
  balance : Except String Nat
  range : Except String (Nat × Nat)
  nonce : Except String Nat
  send : Except String Nat
deriving Repr

/-- How one polling cycle ended. -/
inductive CycleOutcome where
  | balanceReadFailed
  | rangeFailed
  | noUpdates
  | nonceReadFailed
  | sendFailed
  | submitted
deriving Repr, DecidableEq

/-- The observable effects of one polling cycle: whether the balance metric
was recorded, whether the block range was resolved, whether the nonce was
read, whether a submission was attempted, and the outcome. -/
structure CycleTrace where
  balanceMetricSet : Bool
  rangeQueried : Bool
  nonceQueried : Bool
  submissionAttempted : Bool
  outcome : CycleOutcome
deriving Repr, DecidableEq

/-- One iteration of `Service.eventLoop` (service source lines 104-194):
a failed balance read logs and `continue`s; then the range is resolved (a
failure `continue`s); an empty range `continue`s; then the nonce is read (a
failure `continue`s); then the transaction manager drives submission. -/
def eventLoopCycle (o : CycleOracle) : CycleTrace :=
  match o.balance with
  | .error _ => ⟨false, false, false, false, .balanceReadFailed⟩
  | .ok _ =>
    match o.range with
    | .error _ => ⟨true, true, false, false, .rangeFailed⟩
    | .ok (start, end_) =>
      if start = end_ then ⟨true, true, false, false, .noUpdates⟩
      else
        match o.nonce with
        | .error _ => ⟨true, true, true, false, .nonceReadFailed⟩
        | .ok _ =>
          match o.send with
          | .error _ => ⟨true, true, true, true, .sendFailed⟩
          | .ok _ => ⟨true, true, true, true, .submitted⟩

/-- A fetch oracle returning an externally-enqueued (queue) block at every
height. -/
def queueFetch : Nat → Except String Block :=
  fun i => .ok ⟨i, 0, false, []⟩

/-- A fetch oracle whose height 0 is a queue block and whose later heights
carry a 60-byte locally-sequenced transaction. -/
def shrinkFetch : Nat → Except String Block :=
  fun i => if i = 0 then .ok ⟨0, 0, false, []⟩ else .ok ⟨i, 0, true, List.replicate 60 1⟩

/-- A fetch oracle that alternates one queue block and one small sequencer
block. -/
def mixedFetch : Nat → Except String Block :=
  fun i => if i = 0 then .ok ⟨0, 0, false, []⟩ else .ok ⟨i, 0, true, [7, 7]⟩

/-- A fetch oracle whose every read fails. -/
def failFetch : Nat → Except String Block := fun _ => .error "rpc"

/-- The calldata of a one-queue-element batch starting at element 0. -/
def smallBatchCallData : Bytes := [0, 0, 0, 0] ++ serializeBytes ⟨0, 1, [⟨0, 0, none⟩]⟩

/-- A cycle oracle whose wallet-balance read fails while every later read
would succeed on a non-empty range. -/
def balanceFailOracle : CycleOracle := ⟨.error "rpc", .ok (1, 2), .ok 0, .ok 0⟩

/-- A cycle oracle whose range resolution fails. -/
def rangeFailOracle : CycleOracle := ⟨.ok 7, .error "x", .ok 0, .ok 0⟩

/-- A 15-element batch of queue elements. -/
def fifteenElems : List BatchElement := List.replicate 15 ⟨0, 0, none⟩

/-- The elements accumulated by `mixedFetch` over heights 0 and 1. -/
def mixedElems : List BatchElement := [⟨0, 0, none⟩, ⟨0, 1, some [7, 7]⟩]

theorem natToBytes_length (w n : Nat) : (natToBytes w n).length = w := by
  induction w generalizing n with
  | zero => rfl
  | succ w ih => simp [natToBytes, ih]

theorem natToBytes_foldl (w : Nat) :
    ∀ n a, (natToBytes w n).foldl (fun x b => x * 256 + b) a = a * 256 ^ w + n % 256 ^ w := by
  induction w with
  | zero => intro n a; simp [natToBytes, Nat.mod_one]
  | succ w ih =>
    intro n a
    have hsplit : 256 ^ w * (n / 256 ^ w % 256) + n % 256 ^ w = n % (256 ^ w * 256) := by
      have h1 := Nat.div_add_mod (n % (256 ^ w * 256)) (256 ^ w)
      rw [Nat.mod_mul_right_div_self, Nat.mod_mod_of_dvd _ ⟨256, rfl⟩] at h1
      exact h1
    simp only [natToBytes, List.foldl_cons]
    rw [ih n (a * 256 + n / 256 ^ w % 256), pow_succ]
    rw [← hsplit]
    ring

theorem bytesToNat_natToBytes (w n : Nat) : bytesToNat (natToBytes w n) = n % 256 ^ w := by
  unfold bytesToNat
  rw [natToBytes_foldl w n 0]
  simp

theorem contextBytes_length (e : BatchElement) : (contextBytes e).length = 16 := by
  simp [contextBytes, natToBytes_length]

theorem txBytes_length (e : BatchElement) : (txBytes e).length = seqContribution e := by
  cases h : e.tx with
  | none =>
    simp [txBytes, h, seqContribution, BatchElement.isSequencerTx]
  | some bs =>
    simp [txBytes, h, seqContribution, BatchElement.isSequencerTx, txSize,
      natToBytes_length, TxLenSize]

theorem contextsBytes_length (els : List BatchElement) :
    (contextsBytes els).length = 16 * els.length := by
  induction els with
  | nil => rfl
  | cons e rest ih => simp [contextsBytes, contextBytes_length, ih]; ring

theorem txsBytes_length (els : List BatchElement) :
    (txsBytes els).length = seqSizeSum els := by
  induction els with
  | nil => rfl
  | cons e rest ih => simp [txsBytes, txBytes_length, ih, seqSizeSum]

theorem serializeBytes_length (a t : Nat) (els : List BatchElement) :
    (serializeBytes ⟨a, t, els⟩).length = 11 + 16 * els.length + seqSizeSum els := by
  simp [serializeBytes, natToBytes_length, contextsBytes_length, txsBytes_length]
  omega

theorem drop_take_mid (A B R : Bytes) (hA : A.length = 9) (hB : B.length = 3) :
    ((A ++ (B ++ R)).drop 9).take 3 = B := by
  rw [← hA, List.drop_left, ← hB, List.take_left]

theorem decode_selector_serialize (a t : Nat) (els : List BatchElement) :
    decodeTotalElements ([0, 0, 0, 0] ++ serializeBytes ⟨a, t, els⟩) = t % 256 ^ 3 := by
  unfold decodeTotalElements serializeBytes
  have hassoc :
      [0, 0, 0, 0] ++
          (natToBytes 5 a ++ natToBytes 3 t ++ natToBytes 3 els.length ++
            contextsBytes els ++ txsBytes els) =
        ([0, 0, 0, 0] ++ natToBytes 5 a) ++
          (natToBytes 3 t ++
            (natToBytes 3 els.length ++ contextsBytes els ++ txsBytes els)) := by
    simp [List.append_assoc]
  rw [hassoc, drop_take_mid _ _ _ (by simp [natToBytes_length]) (natToBytes_length 3 t),
    bytesToNat_natToBytes]

theorem accumulate_ok (maxTxSize : Nat) (fetch : Nat → Except String Block) :
    ∀ (n i t0 : Nat) (elems : List BatchElement) (total : Nat),
    accumulate maxTxSize fetch i n t0 = .ok (elems, total) →
    total = t0 + seqSizeSum elems ∧
    mapElems fetch i elems.length = .ok elems ∧
    elems.length ≤ n ∧
    (elems.length = n ∨ ∃ b, fetch (i + elems.length) = .ok b ∧
      (BatchElementFromBlock b).isSequencerTx = true ∧
      maxTxSize < total + (TxLenSize + txSize (BatchElementFromBlock b))) := by
  intro n
  induction n with
  | zero =>
    intro i t0 elems total h
    simp only [accumulate, Except.ok.injEq, Prod.mk.injEq] at h
    obtain ⟨h1, h2⟩ := h
    subst h1; subst h2
    simp [mapElems, seqSizeSum]
  | succ n ih =>
    intro i t0 elems total h
    rw [accumulate] at h
    cases hf : fetch i with
    | error e => rw [hf] at h; exact absurd h (by simp)
    | ok b =>
      rw [hf] at h
      simp only at h
      by_cases hseq : (BatchElementFromBlock b).isSequencerTx
      · rw [if_pos hseq] at h
        by_cases hlt : maxTxSize < t0 + (TxLenSize + txSize (BatchElementFromBlock b))
        · rw [if_pos hlt] at h
          simp only [Except.ok.injEq, Prod.mk.injEq] at h
          obtain ⟨h1, h2⟩ := h
          subst h1; subst h2
          refine ⟨by simp [seqSizeSum], by simp [mapElems], by simp, Or.inr ⟨b, ?_, hseq, hlt⟩⟩
          simpa using hf
        · rw [if_neg hlt] at h
          cases hrec : accumulate maxTxSize fetch (i + 1) n
              (t0 + (TxLenSize + txSize (BatchElementFromBlock b))) with
          | error e => rw [hrec] at h; exact absurd h (by simp)
          | ok p =>
            obtain ⟨els, t⟩ := p
            rw [hrec] at h
            simp only [Except.ok.injEq, Prod.mk.injEq] at h
            obtain ⟨h1, h2⟩ := h
            subst h1; subst h2
            obtain ⟨ih1, ih2, ih3, ih4⟩ := ih (i + 1) _ els t hrec
            have hcontrib : seqContribution (BatchElementFromBlock b) =
                TxLenSize + txSize (BatchElementFromBlock b) := by
              simp [seqContribution, hseq]
            refine ⟨?_, ?_, by simpa using ih3, ?_⟩
            · simp [seqSizeSum] at ih1 ⊢
              rw [hcontrib]
              omega
            · simp only [List.length_cons, mapElems, hf, ih2]
            · rcases ih4 with heq | ⟨b', hb', hseq', hlt'⟩
              · exact Or.inl (by simp [heq])
              · refine Or.inr ⟨b', ?_, hseq', hlt'⟩
                have : i + (BatchElementFromBlock b :: els).length = i + 1 + els.length := by
                  simp; omega
                rw [this]; exact hb'
      · rw [if_neg hseq] at h
        cases hrec : accumulate maxTxSize fetch (i + 1) n t0 with
        | error e => rw [hrec] at h; exact absurd h (by simp)
        | ok p =>
          obtain ⟨els, t⟩ := p
          rw [hrec] at h
          simp only [Except.ok.injEq, Prod.mk.injEq] at h
          obtain ⟨h1, h2⟩ := h
          subst h1; subst h2
          obtain ⟨ih1, ih2, ih3, ih4⟩ := ih (i + 1) _ els t hrec
          have hcontrib : seqContribution (BatchElementFromBlock b) = 0 := by
            simp only [seqContribution]
            rw [if_neg hseq]
          refine ⟨?_, ?_, by simpa using ih3, ?_⟩
          · simp [seqSizeSum] at ih1 ⊢
            rw [hcontrib]
            omega
          · simp only [List.length_cons, mapElems, hf, ih2]
          · rcases ih4 with heq | ⟨b', hb', hseq', hlt'⟩
            · exact Or.inl (by simp [heq])
            · refine Or.inr ⟨b', ?_, hseq', hlt'⟩
              have : i + (BatchElementFromBlock b :: els).length = i + 1 + els.length := by
                simp; omega
              rw [this]; exact hb'

theorem mapElems_take (fetch : Nat → Except String Block) :
    ∀ (k i m : Nat) (els : List BatchElement),
    mapElems fetch i k = .ok els → m ≤ k → mapElems fetch i m = .ok (els.take m) := by
  intro k
  induction k with
  | zero =>
    intro i m els h hm
    interval_cases m
    simp only [mapElems, Except.ok.injEq] at h ⊢
    subst h
    rfl
  | succ k ih =>
    intro i m els h hm
    cases m with
    | zero => rfl
    | succ m =>
      rw [mapElems] at h ⊢
      cases hf : fetch i with
      | error e => rw [hf] at h; exact absurd h (by simp)
      | ok b =>
        rw [hf] at h
        cases hrec : mapElems fetch (i + 1) k with
        | error e => rw [hrec] at h; exact absurd h (by simp)
        | ok els' =>
          rw [hrec] at h
          simp only [Except.ok.injEq] at h
          subst h
          rw [ih (i + 1) m els' hrec (by omega)]
          simp

theorem pruneLoop_pub (P : SubmitParams) (s : Nat) :
    ∀ (fuel : Nat) (elems : List BatchElement) (c : Bytes)
      (fe : List BatchElement) (log : List Bytes),
    pruneLoop P s fuel elems = (.published c fe, log) →
    (∃ suf, fe ++ suf = elems) ∧ log = [c] ∧ c.length ≤ P.maxTxSize ∧
    ∃ bp args, P.genParams s P.blockOffset fe = .ok bp ∧ P.serialize bp = .ok args ∧
      c = P.methodID ++ args := by
  intro fuel
  induction fuel with
  | zero =>
    intro elems c fe log h
    exact absurd h (by simp [pruneLoop])
  | succ fuel ih =>
    intro elems c fe log h
    rw [pruneLoop] at h
    cases hg : P.genParams s P.blockOffset elems with
    | error e => rw [hg] at h; exact absurd h (by simp)
    | ok bp =>
      rw [hg] at h
      simp only at h
      cases hs : P.serialize bp with
      | error e => rw [hs] at h; exact absurd h (by simp)
      | ok args =>
        rw [hs] at h
        simp only at h
        by_cases hlen : P.maxTxSize < (P.methodID ++ args).length
        · rw [if_pos hlen] at h
          obtain ⟨⟨suf, hsuf⟩, hlog, hle, hex⟩ := ih (pruneStep elems) c fe log h
          refine ⟨⟨suf ++ elems.drop (elems.length * 9 / 10), ?_⟩, hlog, hle, hex⟩
          rw [← List.append_assoc, hsuf]
          exact List.take_append_drop _ _
        · rw [if_neg hlen] at h
          cases ht : P.mkTransactor with
          | error e => rw [ht] at h; exact absurd h (by simp)
          | ok u =>
            rw [ht] at h
            simp only [Prod.mk.injEq, SubmitResult.published.injEq] at h
            obtain ⟨⟨hc, hfe⟩, hlog⟩ := h
            subst hc; subst hfe; subst hlog
            exact ⟨⟨[], by simp⟩, rfl, by omega, bp, args, hg, hs, rfl⟩

theorem pruneLoop_log (P : SubmitParams) (s : Nat) :
    ∀ (fuel : Nat) (elems : List BatchElement),
    (pruneLoop P s fuel elems).2 = [] ∨
    ∃ c fe, pruneLoop P s fuel elems = (.published c fe, [c]) ∧ c.length ≤ P.maxTxSize := by
  intro fuel
  induction fuel with
  | zero => intro elems; exact Or.inl rfl
  | succ fuel ih =>
    intro elems
    rw [pruneLoop]
    cases hg : P.genParams s P.blockOffset elems with
    | error e => exact Or.inl rfl
    | ok bp =>
      simp only
      cases hs : P.serialize bp with
      | error e => exact Or.inl rfl
      | ok args =>
        simp only
        by_cases hlen : P.maxTxSize < (P.methodID ++ args).length
        · rw [if_pos hlen]
          exact ih (pruneStep elems)
        · rw [if_neg hlen]
          cases ht : P.mkTransactor with
          | error e => exact Or.inl rfl
          | ok u => exact Or.inr ⟨P.methodID ++ args, elems, rfl, by omega⟩

theorem pruneLoop_failed_log (P : SubmitParams) (s : Nat) (fuel : Nat)
    (elems : List BatchElement) (msg : String) (log : List Bytes)
    (h : pruneLoop P s fuel elems = (.failed msg, log)) : log = [] := by
  rcases pruneLoop_log P s fuel elems with h2 | ⟨c, fe, h2, _⟩
  · rw [h] at h2; exact h2
  · rw [h] at h2; exact absurd h2 (by simp)

theorem pruneLoop_nil_spins :
    ∀ fuel, pruneLoop (specParams 10 0 queueFetch) 5 fuel [] = (.spinning, []) := by
  intro fuel
  induction fuel with
  | zero => rfl
  | succ fuel ih => exact ih

/-- Claim C1: whenever `SubmitBatchTx` successfully constructs and publishes
a batch transaction, the published calldata — the fixed method-selector
bytes followed by the serialized batch parameters — is at most the
configured `maxTxSize` bytes long. -/
theorem published_calldata_le_max (P : SubmitParams) (start end_ fuel : Nat)
    (c : Bytes) (fe : List BatchElement) (log : List Bytes)
    (h : SubmitBatchTx P start end_ fuel = (.published c fe, log)) :
    c.length ≤ P.maxTxSize := by
  unfold SubmitBatchTx at h
  cases ha : accumulate P.maxTxSize P.fetch start (end_ - start) 0 with
  | error e => rw [ha] at h; exact absurd h (by simp)
  | ok p =>
    obtain ⟨elems, t⟩ := p
    rw [ha] at h
    exact (pruneLoop_pub P start fuel elems c fe log h).2.2.1

theorem published_calldata_le_max_witness : smallBatchCallData.length ≤ 100 :=
  published_calldata_le_max (specParams 100 0 queueFetch) 0 1 1 smallBatchCallData
    [⟨0, 0, none⟩] [smallBatchCallData] (by decide)

/-- Claim C2 (code defect): with `MaxTxSize = 10` — smaller than the 15-byte
fixed overhead of even an empty batch — and the empty range `[5, 5)`, the
serialize-and-shrink loop of `SubmitBatchTx` never returns, whatever fuel it
is given: the failing size check at element count 0 leaves the count at
`(0 * 9) / 10 = 0`, so neither a fitting payload nor an explicit failure is
ever reached. -/
theorem submitBatchTx_spins_on_empty_range (fuel : Nat) :
    SubmitBatchTx (specParams 10 0 queueFetch) 5 5 fuel = (.spinning, []) :=
  pruneLoop_nil_spins fuel

/-- Claim C3 counterexample: when the wallet-balance read fails, the cycle
does NOT proceed — the block range is never resolved and no submission is
attempted (the loop `continue`s, skipping the whole cycle). -/
theorem balance_failure_skips_cycle_cex :
    balanceFailOracle.balance = .error "rpc" ∧
    (eventLoopCycle balanceFailOracle).rangeQueried = false ∧
    (eventLoopCycle balanceFailOracle).submissionAttempted = false :=
  ⟨rfl, rfl, rfl⟩

/-- Claim C3 (amended): if the wallet-balance read fails, the entire polling
cycle is aborted early: the balance metric is not recorded, and neither
range resolution nor a submission attempt happens; the service retries on
the next interval. -/
theorem balance_failure_aborts_cycle (o : CycleOracle) (msg : String)
    (h : o.balance = .error msg) :
    eventLoopCycle o = ⟨false, false, false, false, .balanceReadFailed⟩ := by
  simp [eventLoopCycle, h]

theorem balance_failure_aborts_cycle_witness :
    eventLoopCycle balanceFailOracle = ⟨false, false, false, false, .balanceReadFailed⟩ :=
  balance_failure_aborts_cycle balanceFailOracle "rpc" rfl

/-- Claim C4: the published payload carries the (possibly shrunk) extent
actually covered: decoding the `totalElementsToAppend` field of the
published calldata yields exactly the number of elements encoded, and the
covered range `[start, start + that count)` never exceeds the requested
`[start, end)` — the on-chain commitment advances only by what was
encoded. -/
theorem published_calldata_covered_extent (maxTx off : Nat)
    (fetch : Nat → Except String Block) (start end_ fuel : Nat)
    (c : Bytes) (fe : List BatchElement) (log : List Bytes)
    (h : SubmitBatchTx (specParams maxTx off fetch) start end_ fuel = (.published c fe, log))
    (hse : start ≤ end_) (hcap : end_ - start < 256 ^ 3) :
    decodeTotalElements c = fe.length ∧ start + fe.length ≤ end_ := by
  unfold SubmitBatchTx at h
  cases ha : accumulate (specParams maxTx off fetch).maxTxSize
      (specParams maxTx off fetch).fetch start (end_ - start) 0 with
  | error e => rw [ha] at h; exact absurd h (by simp)
  | ok p =>
    obtain ⟨elems, t⟩ := p
    rw [ha] at h
    obtain ⟨⟨suf, hsuf⟩, hlog, hle, bp, args, hg, hs, hc⟩ :=
      pruneLoop_pub _ start fuel elems c fe log h
    have hbp : bp = ⟨start - off, fe.length, fe⟩ := by
      simp only [specParams, genSequencerBatchParams, Except.ok.injEq] at hg
      exact hg.symm
    have hargs : args = serializeBytes bp := by
      simp only [specParams, Except.ok.injEq] at hs
      exact hs.symm
    obtain ⟨_, _, hlen, _⟩ :=
      accumulate_ok (specParams maxTx off fetch).maxTxSize
        (specParams maxTx off fetch).fetch (end_ - start) start 0 elems t ha
    have hfele : fe.length ≤ elems.length := by
      rw [← hsuf]; simp
    have hfecap : fe.length < 256 ^ 3 := by omega
    subst hargs
    subst hbp
    have hdec : decodeTotalElements c = fe.length % 256 ^ 3 := by
      rw [hc]
      exact decode_selector_serialize (start - off) fe.length fe
    rw [Nat.mod_eq_of_lt hfecap] at hdec
    exact ⟨hdec, by omega⟩

theorem published_calldata_covered_extent_witness :
    decodeTotalElements smallBatchCallData = 1 ∧ 0 + 1 ≤ 2 := by
  have h := published_calldata_covered_extent 60 0 shrinkFetch 0 2 1 smallBatchCallData
    [⟨0, 0, none⟩] [smallBatchCallData] (by decide) (by omega) (by norm_num)
  exact ⟨h.1, h.2⟩

/-- Claim C5: given successful ledger reads, `GetBatchBlockRange` fails with
the range error exactly when the computed end (L2 head + 1) is strictly
below the computed start (total committed elements + block offset); every
successful return satisfies `start ≤ end`; and a failed range resolution
means the cycle attempts no submission. -/
theorem getBatchBlockRange_spec (blockOffset te hd : Nat) :
    (GetBatchBlockRange blockOffset (.ok te) (.ok hd) = .error "invalid range" ↔
      hd + 1 < te + blockOffset) ∧
    (∀ s e, GetBatchBlockRange blockOffset (.ok te) (.ok hd) = .ok (s, e) → s ≤ e) ∧
    (∀ o : CycleOracle, ∀ msg, o.range = .error msg →
      (eventLoopCycle o).submissionAttempted = false) := by
  refine ⟨?_, ?_, ?_⟩
  · unfold GetBatchBlockRange
    by_cases hcond : hd + 1 < te + blockOffset
    · simp [hcond]
    · simp [hcond]
  · intro s e h
    simp only [GetBatchBlockRange] at h
    by_cases hcond : hd + 1 < te + blockOffset
    · rw [if_pos hcond] at h
      exact absurd h (by simp)
    · rw [if_neg hcond] at h
      simp only [Except.ok.injEq, Prod.mk.injEq] at h
      obtain ⟨h1, h2⟩ := h
      omega
  · intro o msg h
    cases hb : o.balance with
    | error e => simp [eventLoopCycle, hb]
    | ok bal => simp [eventLoopCycle, hb, h]

theorem getBatchBlockRange_spec_witness :
    GetBatchBlockRange 2 (.ok 3) (.ok 10) = .ok (5, 11) ∧ (5 : Nat) ≤ 11 ∧
    (eventLoopCycle rangeFailOracle).submissionAttempted = false :=
  ⟨rfl, (getBatchBlockRange_spec 2 3 10).2.1 5 11 rfl,
    (getBatchBlockRange_spec 2 3 10).2.2 rangeFailOracle "x" rfl⟩

/-- Claim C6 counterexample: on a 15-element batch the pruning step keeps 13
elements, dropping 2 = ⌈15/10⌉; dropping "the last 10% of the elements
(rounded down)" would drop ⌊15/10⌋ = 1 and keep 14. -/
theorem pruneStep_cex :
    pruneStep fifteenElems ≠
      fifteenElems.take (fifteenElems.length - fifteenElems.length / 10) ∧
    (pruneStep fifteenElems).length = 13 ∧
    fifteenElems.length - fifteenElems.length / 10 = 14 := by decide

/-- Claim C6 (amended): each pruning step, triggered in the
serialize-and-shrink loop exactly when the calldata exceeds the configured
maximum, keeps the first `⌊9n/10⌋` elements — a leading contiguous block —
and therefore drops the last `⌈n/10⌉` elements (10%, rounded up in the
dropped count); on a non-empty batch the element count strictly
decreases. -/
theorem pruneStep_spec (elems : List BatchElement) :
    pruneStep elems ++ elems.drop (elems.length * 9 / 10) = elems ∧
    (pruneStep elems).length = elems.length - (elems.length + 9) / 10 ∧
    (elems ≠ [] → (pruneStep elems).length < elems.length) ∧
    (∀ (P : SubmitParams) (s fuel : Nat) (bp : AppendSequencerBatchParams) (args : Bytes),
      P.genParams s P.blockOffset elems = .ok bp → P.serialize bp = .ok args →
      P.maxTxSize < (P.methodID ++ args).length →
      pruneLoop P s (fuel + 1) elems = pruneLoop P s fuel (pruneStep elems)) := by
  refine ⟨List.take_append_drop _ _, ?_, ?_, ?_⟩
  · simp only [pruneStep, List.length_take]
    omega
  · intro hne
    have hpos : 0 < elems.length := List.length_pos.mpr hne
    simp only [pruneStep, List.length_take]
    omega
  · intro P s fuel bp args hg hs hlen
    simp only [pruneLoop, hg, hs, if_pos hlen]

theorem pruneStep_spec_witness :
    (pruneStep fifteenElems).length < fifteenElems.length :=
  (pruneStep_spec fifteenElems).2.2.1 (by decide)

/-- Claim C7 (code defect): when even the smallest decodable payload cannot
fit — `MaxTxSize = 10`, below the fixed 15-byte overhead — `SubmitBatchTx`
on the one-block range `[5, 6)` fails to return for every fuel bound,
instead of failing with an explicit encoding error: it prunes 1 → 0
elements and then re-serializes the empty batch forever, and nothing is
published. -/
theorem submitBatchTx_spins_on_oversized_min (fuel : Nat) :
    SubmitBatchTx (specParams 10 0 queueFetch) 5 6 fuel = (.spinning, []) := by
  cases fuel with
  | zero => rfl
  | succ fuel => exact pruneLoop_nil_spins fuel

/-- Claim C8 counterexample: accumulating one externally-enqueued block
leaves the running size estimate at 0 — a queue element adds nothing to the
running total, not a length-prefix-sized (`TxLenSize`) accounting unit. -/
theorem queue_element_free_cex :
    accumulate 100 queueFetch 0 1 0 = .ok ([⟨0, 0, none⟩], 0) ∧ TxLenSize ≠ 0 := by
  decide

/-- Claim C8 (amended): the running estimate of the accumulation loop counts
locally-sequenced elements only — each adds `TxLenSize` plus its raw size,
while externally-enqueued elements add nothing; accumulation stops the
moment the next locally-sequenced element would push the estimate over the
maximum payload size; and the true serialized size of the accumulated batch
is always at least the running estimate. -/
theorem accumulate_estimate_spec (maxTxSize : Nat) (fetch : Nat → Except String Block)
    (start n : Nat) (elems : List BatchElement) (total : Nat)
    (h : accumulate maxTxSize fetch start n 0 = .ok (elems, total)) :
    total = seqSizeSum elems ∧
    (∀ a t, total ≤ (serializeBytes ⟨a, t, elems⟩).length) ∧
    (elems.length = n ∨ ∃ b, fetch (start + elems.length) = .ok b ∧
      (BatchElementFromBlock b).isSequencerTx = true ∧
      maxTxSize < total + (TxLenSize + txSize (BatchElementFromBlock b))) := by
  obtain ⟨h1, _, _, h4⟩ := accumulate_ok maxTxSize fetch n start 0 elems total h
  refine ⟨by simpa using h1, ?_, h4⟩
  intro a t
  rw [serializeBytes_length]
  omega

theorem accumulate_estimate_spec_witness :
    5 = seqSizeSum mixedElems ∧ 5 ≤ (serializeBytes ⟨0, 2, mixedElems⟩).length := by
  have h := accumulate_estimate_spec 100 mixedFetch 0 2 mixedElems 5 (by decide)
  exact ⟨h.1, h.2.1 0 2⟩

/-- Claim C9: every published batch covers a contiguous leading slice of the
requested height range in original ledger order: the final published
elements are exactly the converted blocks of consecutive heights starting
at `start`, for a count of at most `end − start` — accumulation and
tail-pruning never skip an interior block and preserve order. -/
theorem published_batch_contiguous (P : SubmitParams) (start end_ fuel : Nat)
    (c : Bytes) (fe : List BatchElement) (log : List Bytes)
    (h : SubmitBatchTx P start end_ fuel = (.published c fe, log)) :
    mapElems P.fetch start fe.length = .ok fe ∧ fe.length ≤ end_ - start := by
  unfold SubmitBatchTx at h
  cases ha : accumulate P.maxTxSize P.fetch start (end_ - start) 0 with
  | error e => rw [ha] at h; exact absurd h (by simp)
  | ok p =>
    obtain ⟨elems, t⟩ := p
    rw [ha] at h
    obtain ⟨⟨suf, hsuf⟩, _, _, _⟩ := pruneLoop_pub P start fuel elems c fe log h
    obtain ⟨_, h2, h3, _⟩ :=
      accumulate_ok P.maxTxSize P.fetch (end_ - start) start 0 elems t ha
    have hfele : fe.length ≤ elems.length := by
      rw [← hsuf]; simp
    have hmap := mapElems_take P.fetch elems.length start fe.length elems h2 hfele
    have htake : elems.take fe.length = fe := by
      rw [← hsuf]
      exact List.take_left fe suf
    rw [htake] at hmap
    exact ⟨hmap, by omega⟩

theorem published_batch_contiguous_witness :
    mapElems (specParams 100 0 queueFetch).fetch 0 1 = .ok [⟨0, 0, none⟩] ∧
    1 ≤ 1 - 0 := by
  have h := published_batch_contiguous (specParams 100 0 queueFetch) 0 1 1
    smallBatchCallData [⟨0, 0, none⟩] [smallBatchCallData] (by decide)
  exact ⟨h.1, h.2⟩

/-- Claim C10: if `SubmitBatchTx` returns an error — arising from block
fetching, batch-parameter generation, serialization, or transactor
construction — then nothing was broadcast in that call: the broadcast log
is empty; and every calldata that is ever broadcast passed the size check
first. -/
theorem failed_submit_no_broadcast (P : SubmitParams) (start end_ fuel : Nat) :
    (∀ msg log, SubmitBatchTx P start end_ fuel = (.failed msg, log) → log = []) ∧
    (∀ c, c ∈ (SubmitBatchTx P start end_ fuel).2 → c.length ≤ P.maxTxSize) := by
  unfold SubmitBatchTx
  cases ha : accumulate P.maxTxSize P.fetch start (end_ - start) 0 with
  | error e =>
    refine ⟨?_, ?_⟩
    · intro msg log h
      have h' : (SubmitResult.failed e, ([] : List Bytes)) = (.failed msg, log) := h
      exact ((Prod.ext_iff).mp h').2.symm
    · intro c hc
      have hc' : c ∈ ([] : List Bytes) := hc
      exact absurd hc' (by simp)
  | ok p =>
    obtain ⟨elems, t⟩ := p
    refine ⟨?_, ?_⟩
    · intro msg log h
      exact pruneLoop_failed_log P start fuel elems msg log h
    · intro c hc
      have hc' : c ∈ (pruneLoop P start fuel elems).2 := hc
      rcases pruneLoop_log P start fuel elems with h2 | ⟨c', fe, h2, hle⟩
      · rw [h2] at hc'
        exact absurd hc' (by simp)
      · rw [h2] at hc'
        simp only [List.mem_singleton] at hc'
        rw [hc']
        exact hle

theorem failed_submit_no_broadcast_witness :
    (SubmitBatchTx (specParams 100 0 failFetch) 0 1 1).2 = [] :=
  (failed_submit_no_broadcast (specParams 100 0 failFetch) 0 1 1).1 "rpc"
    (SubmitBatchTx (specParams 100 0 failFetch) 0 1 1).2 (by decide)

end BatchSubmitter
